import Mathlib

set_option maxHeartbeats 1000000

/-!
Shallow embedding of the whole-slide-image tiling engine in
`unicorn_baseline/vision/pathology/wsi.py`.

Physical spacings, downsample factors and polygon areas are modelled as
rationals; pixel coordinates and configured sizes as integers.  The external
collaborators (the pyramidal reader `wholeslidedata`, the OpenCV geometry
primitives `contourArea` / `boundingRect` / `pointPolygonTest`, and the
`HasEnoughTissue` tissue-ratio oracle) are modelled as oracle data: a contour
is represented by the value `cv2.contourArea` reports for it, a region by the
bounding box `cv2.boundingRect` reports for it, and the per-tile tissue check
by an opaque function.
-/

/-- Python `int()` applied to a rational: truncation toward zero. -/
def intTrunc (q : ℚ) : ℤ := if 0 ≤ q then ⌊q⌋ else ⌈q⌉

/-- Minimum of a list of rationals (`np.min` on a nonempty list; 0 on `[]`,
which never occurs in the embedded code paths). -/
def listMin : List ℚ → ℚ
  | [] => 0
  | [x] => x
  | x :: y :: xs => min x (listMin (y :: xs))

/-- Index of the first occurrence of the minimum (`np.argmin` semantics:
ties are broken by the lowest index). -/
def argmin : List ℚ → ℕ
  | [] => 0
  | [_] => 0
  | x :: y :: xs => if x ≤ listMin (y :: xs) then 0 else argmin (y :: xs) + 1

theorem listMin_mem : ∀ {l : List ℚ}, l ≠ [] → listMin l ∈ l := by
  intro l
  induction l with
  | nil => intro h; exact absurd rfl h
  | cons x t ih =>
    intro _
    cases t with
    | nil => simp [listMin]
    | cons y ys =>
      by_cases h : x ≤ listMin (y :: ys)
      · simp [listMin, min_def, h]
      · have hmem := ih (by simp)
        simp only [listMin, min_def, h, if_false]
        exact List.mem_cons_of_mem _ hmem

theorem listMin_le : ∀ {l : List ℚ} {x : ℚ}, x ∈ l → listMin l ≤ x := by
  intro l
  induction l with
  | nil => intro x hx; simp at hx
  | cons a t ih =>
    intro x hx
    cases t with
    | nil =>
      simp at hx
      simp [listMin, hx]
    | cons y ys =>
      rcases List.mem_cons.mp hx with h | h
      · subst h; simp [listMin, min_le_left]
      · exact le_trans (by simp [listMin, min_le_right]) (ih h)

theorem listMin_nonneg {l : List ℚ} (hne : l ≠ []) (h : ∀ x ∈ l, 0 ≤ x) :
    0 ≤ listMin l :=
  h _ (listMin_mem hne)

/-- Helper: `getD` at an in-range index is a member of the list. -/
theorem getD_mem_lt {α : Type} : ∀ (l : List α) (i : ℕ) (d : α), i < l.length → l.getD i d ∈ l := by
  intro l
  induction l with
  | nil => intro i d h; simp at h
  | cons x xs ih =>
    intro i d h
    cases i with
    | zero => simp [List.getD]
    | succ j =>
      have : xs.getD j d ∈ xs := ih j d (by simpa using h)
      simpa [List.getD] using Or.inr this

/-- Helper: `getD` on a mapped list at an in-range index. -/
theorem getD_map_lt {α β : Type} (f : α → β) :
    ∀ (l : List α) (i : ℕ) (d : β) (d' : α), i < l.length →
      (l.map f).getD i d = f (l.getD i d') := by
  intro l
  induction l with
  | nil => intro i d d' h; simp at h
  | cons x xs ih =>
    intro i d d' h
    cases i with
    | zero => simp [List.getD]
    | succ j => simpa [List.getD] using ih j d d' (by simpa using h)

/-- If position `k` of the list holds 0, every entry is nonnegative, and every
entry before `k` is nonzero, then `argmin` returns exactly `k`. -/
theorem argmin_eq_of_zero_at :
    ∀ (l : List ℚ) (k : ℕ), k < l.length → (∀ x ∈ l, 0 ≤ x) →
      l.getD k 0 = 0 → (∀ j, j < k → l.getD j 0 ≠ 0) → argmin l = k := by
  intro l
  induction l with
  | nil => intro k hk; simp at hk
  | cons x t ih =>
    intro k hk hnn hzero hpos
    cases t with
    | nil =>
      have hk0 : k = 0 := by simpa using Nat.lt_one_iff.mp (by simpa using hk)
      subst hk0
      simp [argmin]
    | cons y ys =>
      cases k with
      | zero =>
        have hx : x = 0 := by simpa [List.getD] using hzero
        have htail : 0 ≤ listMin (y :: ys) :=
          listMin_nonneg (by simp) (fun z hz => hnn z (List.mem_cons_of_mem _ hz))
        simp [argmin, hx, htail]
      | succ k =>
        have hx0 : x ≠ 0 := by simpa [List.getD] using hpos 0 (Nat.succ_pos _)
        have hxpos : 0 < x :=
          lt_of_le_of_ne (hnn x (List.mem_cons_self _ _)) (Ne.symm hx0)
        have hk' : k < (y :: ys).length := by simpa using hk
        have hzero' : (y :: ys).getD k 0 = 0 := by simpa [List.getD] using hzero
        have hmemk : (y :: ys).getD k 0 ∈ (y :: ys) := getD_mem_lt _ k 0 hk'
        have hle : listMin (y :: ys) ≤ 0 := hzero' ▸ listMin_le hmemk
        have hnot : ¬ x ≤ listMin (y :: ys) := not_le.mpr (lt_of_le_of_lt hle hxpos)
        have hrec := ih k hk' (fun z hz => hnn z (List.mem_cons_of_mem _ hz)) hzero'
          (fun j hj => by simpa [List.getD] using hpos (j + 1) (Nat.succ_lt_succ hj))
        simp [argmin, hnot, hrec]

/-- Slide metadata captured at open time: per-level spacings (microns per
pixel), per-level pixel dimensions, and the segmentation level chosen at
construction (`self.seg_level`). -/
structure SlideMeta where
  spacings : List ℚ
  levelDimensions : List (ℤ × ℤ)
  segLevel : ℕ
deriving DecidableEq

/-- `WholeSlideImage.get_downsamples`: per-level axis-wise ratio of the
level-0 dimensions to the level's dimensions. -/
def levelDownsamples (m : SlideMeta) : List (ℚ × ℚ) :=
  match m.levelDimensions with
  | [] => []
  | d0 :: _ => m.levelDimensions.map (fun d => ((d0.1 : ℚ) / (d.1 : ℚ), (d0.2 : ℚ) / (d.2 : ℚ)))

theorem levelDownsamples_length (m : SlideMeta) :
    (levelDownsamples m).length = m.levelDimensions.length := by
  unfold levelDownsamples
  cases m.levelDimensions <;> simp

/-- Spacing of a level, as `get_level_spacing` returns it for an in-range
level (the per-object memoization cache is value-transparent; see the
`get_level_spacing` state model further below). -/
def spacingAt (m : SlideMeta) (level : ℕ) : ℚ := m.spacings.getD level 0

/-- Downsample pair of a level. -/
def downsampleAt (m : SlideMeta) (level : ℕ) : ℚ × ℚ := (levelDownsamples m).getD level (1, 1)

/-- Pixel dimensions of a level. -/
def dimAt (m : SlideMeta) (level : ℕ) : ℤ × ℤ := m.levelDimensions.getD level (0, 0)

/-- The tolerance test `abs(level_spacing - target_spacing) / target_spacing
<= tolerance` from `get_best_level_for_spacing`. -/
def withinTol (level_spacing target tol : ℚ) : Bool :=
  decide (|level_spacing - target| / target ≤ tol)

/-- `WholeSlideImage.get_best_level_for_downsample_custom`: index of the level
whose x-axis downsample is closest to the target, first match on ties. -/
def get_best_level_for_downsample_custom (m : SlideMeta) (downsample : ℚ) : ℕ :=
  argmin ((levelDownsamples m).map (fun p => |p.1 - downsample|))

/-- The `while level > 0 and level_spacing > target_spacing` walk of
`get_best_level_for_spacing`: decrement the level, recheck the tolerance after
each decrement, stop early on a tolerance hit. -/
def spacingWalk (m : SlideMeta) (target tol : ℚ) : ℕ → ℕ × Bool
  | 0 => (0, false)
  | l + 1 =>
    if spacingAt m (l + 1) > target then
      if withinTol (spacingAt m l) target tol then (l, true)
      else spacingWalk m target tol l
    else (l + 1, false)

/-- `WholeSlideImage.get_best_level_for_spacing` (pure result part; the
one-shot warning side effect is modelled separately below). -/
def get_best_level_for_spacing (m : SlideMeta) (target tol : ℚ) : ℕ × Bool :=
  let level := get_best_level_for_downsample_custom m (target / spacingAt m 0)
  if withinTol (spacingAt m level) target tol then (level, true)
  else spacingWalk m target tol level

/-- C1: on a consistent pyramid (each level's x-downsample equals its spacing
ratio to level 0, spacings positive and pairwise distinct), asking for the
exact spacing of a valid level `k` with tolerance 0 returns `(k, true)`:
the tie-break of `get_best_level_for_downsample_custom` picks `k` itself and
the exact match is reported as within tolerance. -/
theorem C1_exact_spacing_self_consistent (m : SlideMeta) (k : ℕ)
    (hlen : m.levelDimensions.length = m.spacings.length)
    (hk : k < m.spacings.length)
    (hcons : ∀ i, i < m.spacings.length → (downsampleAt m i).1 = spacingAt m i / spacingAt m 0)
    (hpos : ∀ i, i < m.spacings.length → 0 < spacingAt m i)
    (hinj : ∀ i j, i < m.spacings.length → j < m.spacings.length →
      spacingAt m i = spacingAt m j → i = j) :
    get_best_level_for_spacing m (spacingAt m k) 0 = (k, true) := by
  have hs0 : 0 < spacingAt m 0 := hpos 0 (Nat.zero_lt_of_lt hk)
  have hsk : 0 < spacingAt m k := hpos k hk
  set td := spacingAt m k / spacingAt m 0 with htd
  set L := (levelDownsamples m).map (fun p => |p.1 - td|) with hL
  have hLlen : L.length = m.spacings.length := by
    rw [hL, List.length_map, levelDownsamples_length, hlen]
  have hentry : ∀ i, i < m.spacings.length →
      L.getD i 0 = |spacingAt m i / spacingAt m 0 - td| := by
    intro i hi
    have hi' : i < (levelDownsamples m).length := by
      rw [levelDownsamples_length, hlen]; exact hi
    rw [hL, getD_map_lt _ _ i 0 (1, 1) hi']
    have : ((levelDownsamples m).getD i (1, 1)).1 = spacingAt m i / spacingAt m 0 :=
      hcons i hi
    rw [this]
  have hzerok : L.getD k 0 = 0 := by
    rw [hentry k hk, htd]; simp
  have hposj : ∀ j, j < k → L.getD j 0 ≠ 0 := by
    intro j hj
    have hjn : j < m.spacings.length := lt_trans hj hk
    rw [hentry j hjn]
    intro habs
    have hdiff : spacingAt m j / spacingAt m 0 - td = 0 := by
      exact abs_eq_zero.mp habs
    have : spacingAt m j / spacingAt m 0 = spacingAt m k / spacingAt m 0 := by
      rw [htd] at hdiff; linarith
    have heq : spacingAt m j = spacingAt m k := by
      field_simp at this
      exact this
    have := hinj j k hjn hk heq
    omega
  have hnn : ∀ x ∈ L, 0 ≤ x := by
    intro x hx
    rw [hL] at hx
    rcases List.mem_map.mp hx with ⟨p, _, rfl⟩
    exact abs_nonneg _
  have hargmin : argmin L = k :=
    argmin_eq_of_zero_at L k (by rw [hLlen]; exact hk) hnn hzerok hposj
  have hlevel : get_best_level_for_downsample_custom m td = k := by
    unfold get_best_level_for_downsample_custom
    rw [← hL]
    exact hargmin
  unfold get_best_level_for_spacing
  simp only [← htd, hlevel]
  have hwt : withinTol (spacingAt m k) (spacingAt m k) 0 = true := by
    unfold withinTol
    simp
  simp [hwt]

/-- A three-level consistent pyramid used by concrete witnesses: spacings
halve the resolution at each step and the dimensions match. -/
def exMeta : SlideMeta :=
  { spacings := [1/2, 2, 8]
    levelDimensions := [(800, 600), (200, 150), (50, 37)]
    segLevel := 2 }

theorem C1_exact_spacing_self_consistent_witness :
    get_best_level_for_spacing exMeta (spacingAt exMeta 1) 0 = (1, true) :=
  C1_exact_spacing_self_consistent exMeta 1 (by decide) (by decide)
    (by
      intro i hi
      have hi3 : i < 3 := by simpa [exMeta] using hi
      interval_cases i <;>
        norm_num [downsampleAt, levelDownsamples, spacingAt, exMeta])
    (by
      intro i hi
      have hi3 : i < 3 := by simpa [exMeta] using hi
      interval_cases i <;> norm_num [spacingAt, exMeta])
    (by
      intro i j hi hj h
      have hi3 : i < 3 := by simpa [exMeta] using hi
      have hj3 : j < 3 := by simpa [exMeta] using hj
      interval_cases i <;> interval_cases j <;> revert h <;>
        norm_num [spacingAt, exMeta])

/-- Parameters for filtering contours (the `FilterParams` named tuple). -/
structure FilterParams where
  ref_tile_size : ℤ
  a_t : ℤ
  a_h : ℤ
  max_n_holes : ℕ
deriving DecidableEq

/-- A mask contour, represented by the area that the external geometry
primitive `cv2.contourArea` reports for it. -/
structure Contour where
  area : ℚ
deriving DecidableEq

instance : Inhabited Contour := ⟨⟨0⟩⟩

/-- The per-axis rescaling factor computed in `detect_contours`:
`target_scale / current_scale`, where `current_scale` is the downsample of the
level resolved for the target spacing and `target_scale` the downsample of the
segmentation level. -/
def detectScale (m : SlideMeta) (spacing_level : ℕ) : ℚ × ℚ :=
  ((downsampleAt m m.segLevel).1 / (downsampleAt m spacing_level).1,
   (downsampleAt m m.segLevel).2 / (downsampleAt m spacing_level).2)

/-- The normalization factor `int(ref_tile_size ** 2 / (scale[0] * scale[1]))`
from `detect_contours`. -/
def scaledRefTileArea (ref : ℤ) (scale : ℚ × ℚ) : ℤ :=
  intTrunc ((ref : ℚ) ^ 2 / (scale.1 * scale.2))

/-- The rescaled `FilterParams` built inside `detect_contours`. -/
def scaleFilterParams (fp : FilterParams) (scale : ℚ × ℚ) : FilterParams :=
  { fp with
    a_t := fp.a_t * scaledRefTileArea fp.ref_tile_size scale
    a_h := fp.a_h * scaledRefTileArea fp.ref_tile_size scale }

/-- The scaled filter parameters exactly as `detect_contours` computes them
for a tiling request. -/
def detectFilterParams (m : SlideMeta) (target_spacing tol : ℚ) (fp : FilterParams) :
    FilterParams :=
  scaleFilterParams fp (detectScale m (get_best_level_for_spacing m target_spacing tol).1)

/-- Indices of the immediate holes of the foreground contour at index `ci`:
contours whose hierarchy parent is `ci` (`np.flatnonzero(hierarchy[:, 1] ==
cont_idx)`). -/
def holeIndicesOf (parents : List ℤ) (ci : ℕ) : List ℕ :=
  (List.range parents.length).filter (fun j => decide (parents.getD j 0 = (ci : ℤ)))

/-- Contour lookup by index. -/
def contourAt (contours : List Contour) (i : ℕ) : Contour := contours.getD i default

/-- Net area of foreground contour `ci`: its own area minus the summed areas
of its immediate holes (`a = a - np.array(hole_areas).sum()`). -/
def netArea (contours : List Contour) (parents : List ℤ) (ci : ℕ) : ℚ :=
  (contourAt contours ci).area -
    ((holeIndicesOf parents ci).map (fun j => (contourAt contours j).area)).sum

/-- Indices of foreground contours: hierarchy parent is `-1`
(`np.flatnonzero(hierarchy[:, 1] == -1)`). -/
def foregroundIndices (parents : List ℤ) : List ℕ :=
  (List.range parents.length).filter (fun i => decide (parents.getD i 0 = -1))

/-- Foreground-contour indices retained by `filter_contours`: the loop skips a
contour when its net area is 0 and keeps it when the net area strictly exceeds
the (already scaled) threshold `a_t`. -/
def keptIndices (contours : List Contour) (parents : List ℤ) (fp : FilterParams) : List ℕ :=
  (foregroundIndices parents).filter
    (fun i => decide (netArea contours parents i ≠ 0 ∧
      (fp.a_t : ℚ) < netArea contours parents i))

/-- Stable insertion of a contour into a list sorted by descending area: the
inserted element goes before the first element with smaller-or-equal area, so
that, combined with `sortDesc`, earlier holes stay before later equal-area
holes exactly as Python's stable `sorted(..., reverse=True)` would place
them. -/
def insertDesc (c : Contour) : List Contour → List Contour
  | [] => [c]
  | x :: xs => if x.area ≤ c.area then c :: x :: xs else x :: insertDesc c xs

/-- `sorted(unfiltered_holes, key=cv2.contourArea, reverse=True)`: stable sort
by descending area. -/
def sortDesc : List Contour → List Contour
  | [] => []
  | c :: rest => insertDesc c (sortDesc rest)

theorem insertDesc_perm (c : Contour) :
    ∀ l : List Contour, (insertDesc c l).Perm (c :: l) := by
  intro l
  induction l with
  | nil => simp [insertDesc]
  | cons x xs ih =>
    by_cases h : x.area ≤ c.area
    · simp [insertDesc, h]
    · simp only [insertDesc, h, if_false]
      exact ((ih.cons x).trans (List.Perm.swap c x xs))

theorem sortDesc_perm : ∀ l : List Contour, (sortDesc l).Perm l := by
  intro l
  induction l with
  | nil => simp [sortDesc]
  | cons c rest ih =>
    exact (insertDesc_perm c (sortDesc rest)).trans (ih.cons c)

theorem insertDesc_sorted (c : Contour) :
    ∀ l : List Contour, l.Pairwise (fun a b => b.area ≤ a.area) →
      (insertDesc c l).Pairwise (fun a b => b.area ≤ a.area) := by
  intro l
  induction l with
  | nil => intro _; simp [insertDesc]
  | cons x xs ih =>
    intro hp
    rcases List.pairwise_cons.mp hp with ⟨hx, hxs⟩
    by_cases h : x.area ≤ c.area
    · simp only [insertDesc, h, if_true]
      refine List.pairwise_cons.mpr ⟨?_, hp⟩
      intro b hb
      rcases List.mem_cons.mp hb with rfl | hb
      · exact h
      · exact le_trans (hx b hb) h
    · simp only [insertDesc, h, if_false]
      refine List.pairwise_cons.mpr ⟨?_, ih hxs⟩
      intro b hb
      have hb' : b ∈ c :: xs := (insertDesc_perm c xs).mem_iff.mp hb
      rcases List.mem_cons.mp hb' with rfl | hb'
      · exact le_of_not_le h
      · exact hx b hb'

theorem sortDesc_sorted :
    ∀ l : List Contour, (sortDesc l).Pairwise (fun a b => b.area ≤ a.area) := by
  intro l
  induction l with
  | nil => simp [sortDesc]
  | cons c rest ih => exact insertDesc_sorted c (sortDesc rest) ih

/-- On a list sorted by strictly descending area, an element is among the
first `m` entries iff fewer than `m` entries have a larger area. -/
theorem mem_take_iff_fewer_greater :
    ∀ (l : List Contour) (m : ℕ) (h : Contour),
      l.Pairwise (fun a b => b.area ≤ a.area) →
      l.Pairwise (fun a b => a.area ≠ b.area) →
      h ∈ l →
      (h ∈ l.take m ↔ l.countP (fun x => decide (h.area < x.area)) < m) := by
  intro l
  induction l with
  | nil => intro m h _ _ hm; simp at hm
  | cons x xs ih =>
    intro m h hs hd hm
    rcases List.pairwise_cons.mp hs with ⟨hsx, hsxs⟩
    rcases List.pairwise_cons.mp hd with ⟨hdx, hdxs⟩
    rcases List.mem_cons.mp hm with heq | hmem
    · rw [heq]
      have hcnt : (x :: xs).countP (fun y => decide (x.area < y.area)) = 0 := by
        refine List.countP_eq_zero.mpr ?_
        intro a ha
        rcases List.mem_cons.mp ha with rfl | ha
        · simp
        · simp only [decide_eq_true_eq]
          exact not_lt.mpr (hsx a ha)
      rw [hcnt]
      cases m with
      | zero => simp
      | succ k => simp [List.take_succ_cons]
    · have hne : h ≠ x := by
        intro heq
        subst heq
        exact (hdx h hmem) rfl
      have hlt : h.area < x.area :=
        lt_of_le_of_ne (hsx h hmem) (fun heq => (hdx h hmem) heq.symm)
      have hcnt : (x :: xs).countP (fun y => decide (h.area < y.area)) =
          xs.countP (fun y => decide (h.area < y.area)) + 1 := by
        rw [List.countP_cons]
        simp [hlt]
      rw [hcnt]
      cases m with
      | zero => simp
      | succ k =>
        rw [List.take_succ_cons]
        have hiff := ih k h hsxs hdxs hmem
        simp only [List.mem_cons, hne, false_or]
        rw [hiff]
        omega

/-- Per-contour hole processing in `filter_contours`: sort the holes by
descending area, keep the `max_n_holes` largest, then keep a hole iff its
area strictly exceeds the (already scaled) threshold `a_h`. -/
def keptHoles (hs : List Contour) (maxN : ℕ) (a_h : ℚ) : List Contour :=
  ((sortDesc hs).take maxN).filter (fun h => decide (a_h < h.area))

/-- `WholeSlideImage.filter_contours`: retained foreground contours, and the
filtered hole list of each retained contour, index-aligned. -/
def filter_contours (contours : List Contour) (parents : List ℤ) (fp : FilterParams) :
    List Contour × List (List Contour) :=
  ((keptIndices contours parents fp).map (contourAt contours),
   (keptIndices contours parents fp).map
     (fun ci => keptHoles ((holeIndicesOf parents ci).map (contourAt contours))
       fp.max_n_holes (fp.a_h : ℚ)))

/-- The region-area threshold exactly as claim C2 words it: the configured
`a_t` multiplied by the reference tile size squared divided by
`scale.x * scale.y`, with no integer truncation.  Stated from the spec's words
for comparison against the code's `scaleFilterParams`. -/
def specScaledAreaThreshold (a_t ref : ℤ) (scale : ℚ × ℚ) : ℚ :=
  (a_t : ℚ) * ((ref : ℚ) ^ 2 / (scale.1 * scale.2))

/-- C2 (amended): a foreground contour is retained by `filter_contours` under
the parameters computed by `detect_contours` iff its net area (own area minus
summed immediate-hole areas) is strictly positive and strictly exceeds
`a_t * int(referenceTileSize^2 / (scale.x * scale.y))` — the code truncates
the normalization factor to an integer before multiplying by `a_t`. -/
theorem C2_region_area_filter (m : SlideMeta) (spacing tol : ℚ)
    (contours : List Contour) (parents : List ℤ) (fp : FilterParams) (i : ℕ)
    (hat : 0 ≤ fp.a_t)
    (hs1 : 0 < (detectScale m (get_best_level_for_spacing m spacing tol).1).1)
    (hs2 : 0 < (detectScale m (get_best_level_for_spacing m spacing tol).1).2)
    (hi : i < parents.length) (hfg : parents.getD i 0 = -1) :
    i ∈ keptIndices contours parents (detectFilterParams m spacing tol fp) ↔
      (0 < netArea contours parents i ∧
        ((fp.a_t * scaledRefTileArea fp.ref_tile_size
            (detectScale m (get_best_level_for_spacing m spacing tol).1) : ℤ) : ℚ) <
          netArea contours parents i) := by
  set scale := detectScale m (get_best_level_for_spacing m spacing tol).1 with hscale
  have hsra : 0 ≤ scaledRefTileArea fp.ref_tile_size scale := by
    unfold scaledRefTileArea intTrunc
    have harg : 0 ≤ ((fp.ref_tile_size : ℚ)) ^ 2 / (scale.1 * scale.2) :=
      div_nonneg (sq_nonneg _) (le_of_lt (mul_pos hs1 hs2))
    rw [if_pos harg]
    exact Int.floor_nonneg.mpr harg
  have hthr : (0 : ℚ) ≤ ((fp.a_t * scaledRefTileArea fp.ref_tile_size scale : ℤ) : ℚ) := by
    exact_mod_cast mul_nonneg hat hsra
  have hmemfg : i ∈ foregroundIndices parents := by
    unfold foregroundIndices
    refine List.mem_filter.mpr ⟨List.mem_range.mpr hi, ?_⟩
    simpa using hfg
  have hfield : ((detectFilterParams m spacing tol fp).a_t : ℚ) =
      ((fp.a_t * scaledRefTileArea fp.ref_tile_size scale : ℤ) : ℚ) := by
    simp [detectFilterParams, scaleFilterParams, hscale]
  constructor
  · intro hkept
    have hpred := (List.mem_filter.mp hkept).2
    rw [decide_eq_true_eq] at hpred
    rcases hpred with ⟨hne, hgt⟩
    rw [hfield] at hgt
    exact ⟨lt_of_le_of_lt hthr hgt, hgt⟩
  · intro hprop
    rcases hprop with ⟨hpos, hgt⟩
    refine List.mem_filter.mpr ⟨hmemfg, ?_⟩
    rw [decide_eq_true_eq]
    exact ⟨ne_of_gt hpos, by rw [hfield]; exact hgt⟩

/-- A two-level pyramid whose segmentation level is level 1, giving a
non-integral normalization factor `ref^2 / (scale.x * scale.y) = 9/2`. -/
def exMeta2 : SlideMeta :=
  { spacings := [1, 2]
    levelDimensions := [(4, 4), (2, 4)]
    segLevel := 1 }

theorem exMeta2_best_level : get_best_level_for_spacing exMeta2 1 0 = (0, true) := by
  have hds : levelDownsamples exMeta2 = [(1, 1), (2, 1)] := by
    norm_num [levelDownsamples, exMeta2]
  have hmap : (levelDownsamples exMeta2).map
      (fun p => |p.1 - 1 / spacingAt exMeta2 0|) = [0, 1] := by
    rw [hds]
    norm_num [spacingAt, exMeta2]
  unfold get_best_level_for_spacing get_best_level_for_downsample_custom
  rw [hmap]
  have hws : withinTol (spacingAt exMeta2 (argmin [0, 1])) 1 0 = true := by
    have : argmin [0, 1] = 0 := by norm_num [argmin, listMin]
    rw [this]
    simp only [withinTol, decide_eq_true_eq]
    norm_num [spacingAt, exMeta2]
  simp only [hws, if_true]
  have : argmin [0, 1] = 0 := by norm_num [argmin, listMin]
  rw [this]

theorem exMeta2_scale : detectScale exMeta2 (get_best_level_for_spacing exMeta2 1 0).1 = (2, 1) := by
  have hds : levelDownsamples exMeta2 = [(1, 1), (2, 1)] := by
    norm_num [levelDownsamples, exMeta2]
  rw [exMeta2_best_level]
  show detectScale exMeta2 0 = (2, 1)
  unfold detectScale downsampleAt
  rw [hds]
  norm_num [exMeta2]

/-- C2 counterexample: with `ref_tile_size = 3`, `a_t = 2` and scale `(2,1)`,
the code scales the threshold to `2 * int(9/2) = 8` and retains a hole-free
contour of area 9, while the claim's exact threshold is `2 * 9/2 = 9`, which
area 9 does not strictly exceed — so the claim's iff fails on this input. -/
theorem C2_region_area_filter_cex :
    0 ∈ keptIndices [⟨9⟩] [-1] (detectFilterParams exMeta2 1 0 ⟨3, 2, 1, 4⟩) ∧
    ¬ (specScaledAreaThreshold 2 3
        (detectScale exMeta2 (get_best_level_for_spacing exMeta2 1 0).1) <
          netArea [⟨9⟩] [-1] 0) := by
  have hnet : netArea [⟨9⟩] [-1] 0 = 9 := by
    norm_num [netArea, contourAt, holeIndicesOf, List.range_succ]
  have hfp : detectFilterParams exMeta2 1 0 ⟨3, 2, 1, 4⟩ =
      ⟨3, 8, 4, 4⟩ := by
    rw [detectFilterParams, exMeta2_scale]
    norm_num [scaleFilterParams, scaledRefTileArea, intTrunc]
  constructor
  · rw [hfp]
    unfold keptIndices foregroundIndices
    refine List.mem_filter.mpr ⟨?_, ?_⟩
    · refine List.mem_filter.mpr ⟨by norm_num, ?_⟩
      norm_num
    · rw [decide_eq_true_eq, hnet]
      norm_num
  · rw [hnet, exMeta2_scale]
    norm_num [specScaledAreaThreshold]

theorem C2_region_area_filter_witness :
    0 ∈ keptIndices [⟨9⟩] [-1] (detectFilterParams exMeta2 1 0 ⟨3, 2, 1, 4⟩) ↔
      (0 < netArea [⟨9⟩] [-1] 0 ∧
        (((⟨3, 2, 1, 4⟩ : FilterParams).a_t * scaledRefTileArea 3
            (detectScale exMeta2 (get_best_level_for_spacing exMeta2 1 0).1) : ℤ) : ℚ) <
          netArea [⟨9⟩] [-1] 0) :=
  C2_region_area_filter exMeta2 1 0 [⟨9⟩] [-1] ⟨3, 2, 1, 4⟩ 0
    (by norm_num)
    (by rw [exMeta2_scale]; norm_num)
    (by rw [exMeta2_scale]; norm_num)
    (by norm_num)
    (by norm_num)

/-- C3: for a contour's holes with pairwise distinct areas, a hole is in the
filtered hole list iff fewer than `max_n_holes` holes have larger area (it is
among the `max_n_holes` largest) and its own area strictly exceeds the scaled
hole-area threshold; holes beyond the `max_n_holes` largest are dropped no
matter their area. -/
theorem C3_hole_ranking (hs : List Contour) (maxN : ℕ) (a_h : ℚ) (h : Contour)
    (hmem : h ∈ hs) (hd : hs.Pairwise (fun a b => a.area ≠ b.area)) :
    h ∈ keptHoles hs maxN a_h ↔
      (hs.countP (fun x => decide (h.area < x.area)) < maxN ∧ a_h < h.area) := by
  unfold keptHoles
  have hperm := sortDesc_perm hs
  have hsorted := sortDesc_sorted hs
  have hdist : (sortDesc hs).Pairwise (fun a b => a.area ≠ b.area) :=
    (List.Perm.pairwise_iff (fun hab => Ne.symm hab) hperm).mpr hd
  have hmem' : h ∈ sortDesc hs := hperm.mem_iff.mpr hmem
  have htake := mem_take_iff_fewer_greater (sortDesc hs) maxN h hsorted hdist hmem'
  have hcount : (sortDesc hs).countP (fun x => decide (h.area < x.area)) =
      hs.countP (fun x => decide (h.area < x.area)) := hperm.countP_eq _
  rw [List.mem_filter, htake, hcount, decide_eq_true_eq]

/-- Holes used by the C3 witness: four distinct areas. -/
def exHoles : List Contour := [⟨5⟩, ⟨3⟩, ⟨9⟩, ⟨1⟩]

theorem C3_hole_ranking_witness :
    (⟨5⟩ : Contour) ∈ keptHoles exHoles 2 2 ↔
      (exHoles.countP (fun x => decide ((5 : ℚ) < x.area)) < 2 ∧ (2 : ℚ) < 5) :=
  C3_hole_ranking exHoles 2 2 ⟨5⟩
    (by norm_num [exHoles])
    (by norm_num [exHoles, List.pairwise_cons])

/-- `np.arange(start, stop, step)` over the integers for a positive step;
empty when the range is empty (a zero or negative step never occurs on the
embedded code paths under the theorems' hypotheses). -/
def aranges (start stop step : ℤ) : List ℤ :=
  if start < stop ∧ 0 < step then
    (List.range ((stop - start - 1).toNat / step.toNat + 1)).map
      (fun k : ℕ => start + step * (k : ℤ))
  else []

theorem mem_aranges_bounds {start stop step x : ℤ} (hx : x ∈ aranges start stop step) :
    start ≤ x ∧ x < stop := by
  unfold aranges at hx
  by_cases h : start < stop ∧ 0 < step
  · rw [if_pos h] at hx
    rcases List.mem_map.mp hx with ⟨k, hk, rfl⟩
    rcases h with ⟨hlt, hstep⟩
    have hk' : k ≤ (stop - start - 1).toNat / step.toNat :=
      Nat.lt_succ_iff.mp (List.mem_range.mp hk)
    have hmul : k * step.toNat ≤ (stop - start - 1).toNat :=
      le_trans (Nat.mul_le_mul_right _ hk') (Nat.div_mul_le_self _ _)
    have hsnat : ((step.toNat : ℤ)) = step := Int.toNat_of_nonneg (le_of_lt hstep)
    have hcast : ((k * step.toNat : ℕ) : ℤ) = step * (k : ℤ) := by
      push_cast [hsnat]
      ring
    have hle : step * (k : ℤ) ≤ stop - start - 1 := by
      omega
    have hknn : 0 ≤ step * (k : ℤ) := mul_nonneg (le_of_lt hstep) (Int.natCast_nonneg k)
    omega
  · rw [if_neg h] at hx
    simp at hx

theorem aranges_mem_of_lt {start stop step : ℤ} (k : ℕ) (hstep : 0 < step)
    (h : start + step * (k : ℤ) < stop) :
    start + step * (k : ℤ) ∈ aranges start stop step := by
  have hknn : 0 ≤ step * (k : ℤ) := mul_nonneg (le_of_lt hstep) (Int.natCast_nonneg k)
  have hlt : start < stop := by omega
  unfold aranges
  rw [if_pos ⟨hlt, hstep⟩]
  refine List.mem_map.mpr ⟨k, List.mem_range.mpr ?_, rfl⟩
  rw [Nat.lt_succ_iff, Nat.le_div_iff_mul_le (by omega : 0 < step.toNat)]
  have hsnat : ((step.toNat : ℤ)) = step := Int.toNat_of_nonneg (le_of_lt hstep)
  have hcast : ((k * step.toNat : ℕ) : ℤ) = step * (k : ℤ) := by
    push_cast [hsnat]
    ring
  omega

/-- The flattened `np.meshgrid(x_range, y_range, indexing="ij")` candidate
list: x varies in the outer loop, y in the inner one. -/
def coordCandidates : List ℤ → List ℤ → List (ℤ × ℤ)
  | [], _ => []
  | x :: xs, yr => (yr.map fun y => (x, y)) ++ coordCandidates xs yr

theorem mem_coordCandidates :
    ∀ (xr yr : List ℤ) (a b : ℤ), ((a, b) ∈ coordCandidates xr yr ↔ a ∈ xr ∧ b ∈ yr) := by
  intro xr
  induction xr with
  | nil => intro yr a b; simp [coordCandidates]
  | cons x xs ih =>
    intro yr a b
    simp only [coordCandidates, List.mem_append, List.mem_map, List.mem_cons, ih]
    constructor
    · rintro (⟨y, hy, heq⟩ | ⟨h1, h2⟩)
      · injection heq with hx hy2
        subst hx
        subst hy2
        exact ⟨Or.inl rfl, hy⟩
      · exact ⟨Or.inr h1, h2⟩
    · rintro ⟨(rfl | h1), h2⟩
      · exact Or.inl ⟨b, h2, rfl⟩
      · exact Or.inr ⟨h1, h2⟩

/-- The bounding box `cv2.boundingRect` reports for a region contour. -/
structure BBox where
  x : ℤ
  y : ℤ
  w : ℤ
  h : ℤ
deriving DecidableEq

/-- The per-contour result quintuple of `process_contour`: tile coordinates
(the source carries parallel x and y lists, zipped back together by
`get_tile_coordinates`), tissue percentages, and the `None`-able tile level
and resize factor. -/
structure ContourResult where
  coords : List (ℤ × ℤ)
  pcts : List ℚ
  level : Option ℕ
  resize : Option ℚ
deriving DecidableEq

/-- The delegated geometry: per-candidate `HasEnoughTissue.check_coordinates`
(keep flag and tissue percentage) and the `isInHoles` point-in-polygon test. -/
structure TissueOracle where
  check : ℤ × ℤ → Bool × ℚ
  inHoles : ℤ × ℤ → Bool

/-- The tile level `process_contour` resolves for a target spacing. -/
def tileLevelFor (m : SlideMeta) (spacing tol : ℚ) : ℕ :=
  (get_best_level_for_spacing m spacing tol).1

/-- `resize_factor`: `spacing / tile_spacing`, overridden to 1.0 when the
resolved level is within tolerance. -/
def resizeFactorFor (m : SlideMeta) (spacing tol : ℚ) : ℚ :=
  if (get_best_level_for_spacing m spacing tol).2 then 1
  else spacing / spacingAt m (tileLevelFor m spacing tol)

/-- `tile_size_resized = int(tile_size * resize_factor)`. -/
def tileSizeResizedFor (m : SlideMeta) (spacing tol : ℚ) (tile_size : ℤ) : ℤ :=
  intTrunc ((tile_size : ℚ) * resizeFactorFor m spacing tol)

/-- `step_size = int(tile_size_resized * (1.0 - overlap))`. -/
def stepSizeFor (m : SlideMeta) (spacing tol : ℚ) (tile_size : ℤ) (overlap : ℚ) : ℤ :=
  intTrunc ((tileSizeResizedFor m spacing tol tile_size : ℚ) * (1 - overlap))

/-- `tile_downsample = (int(ds.x), int(ds.y))` at a level. -/
def tileDownsampleFor (m : SlideMeta) (lvl : ℕ) : ℤ × ℤ :=
  (intTrunc (downsampleAt m lvl).1, intTrunc (downsampleAt m lvl).2)

/-- `ref_tile_size`: the resized tile size expressed in level-0 pixels. -/
def refTileSizeFor (m : SlideMeta) (spacing tol : ℚ) (tile_size : ℤ) : ℤ × ℤ :=
  (tileSizeResizedFor m spacing tol tile_size *
      (tileDownsampleFor m (tileLevelFor m spacing tol)).1,
   tileSizeResizedFor m spacing tol tile_size *
      (tileDownsampleFor m (tileLevelFor m spacing tol)).2)

/-- `ref_step_size`: the step size expressed in level-0 pixels. -/
def refStepFor (m : SlideMeta) (spacing tol : ℚ) (tile_size : ℤ) (overlap : ℚ) : ℤ × ℤ :=
  (stepSizeFor m spacing tol tile_size overlap *
      (tileDownsampleFor m (tileLevelFor m spacing tol)).1,
   stepSizeFor m spacing tol tile_size overlap *
      (tileDownsampleFor m (tileLevelFor m spacing tol)).2)

/-- The scan bounding box of `process_contour`: the region's bounding
rectangle, or, when the contour is absent (whole-slide mode), the origin
together with the raw pixel dimensions of the resolved tile level. -/
def scanBBox (m : SlideMeta) (lvl : ℕ) (contourBBox : Option BBox) : BBox :=
  match contourBBox with
  | some b => b
  | none => ⟨0, 0, (dimAt m lvl).1, (dimAt m lvl).2⟩

/-- Exclusive scan stops: the full bounding box with padding, otherwise
clamped so a full reference tile still fits inside the level-0 extent. -/
def scanStops (m : SlideMeta) (spacing tol : ℚ) (tile_size : ℤ)
    (contourBBox : Option BBox) (use_padding : Bool) : ℤ × ℤ :=
  (if use_padding then
      (scanBBox m (tileLevelFor m spacing tol) contourBBox).x +
        (scanBBox m (tileLevelFor m spacing tol) contourBBox).w
    else
      min ((scanBBox m (tileLevelFor m spacing tol) contourBBox).x +
            (scanBBox m (tileLevelFor m spacing tol) contourBBox).w)
        ((dimAt m 0).1 - (refTileSizeFor m spacing tol tile_size).1 + 1),
   if use_padding then
      (scanBBox m (tileLevelFor m spacing tol) contourBBox).y +
        (scanBBox m (tileLevelFor m spacing tol) contourBBox).h
    else
      min ((scanBBox m (tileLevelFor m spacing tol) contourBBox).y +
            (scanBBox m (tileLevelFor m spacing tol) contourBBox).h)
        ((dimAt m 0).2 - (refTileSizeFor m spacing tol tile_size).2 + 1))

/-- The candidate tile grid of `process_contour`. -/
def gridCandidates (m : SlideMeta) (spacing tol : ℚ) (tile_size : ℤ) (overlap : ℚ)
    (contourBBox : Option BBox) (use_padding : Bool) : List (ℤ × ℤ) :=
  coordCandidates
    (aranges (scanBBox m (tileLevelFor m spacing tol) contourBBox).x
      (scanStops m spacing tol tile_size contourBBox use_padding).1
      (refStepFor m spacing tol tile_size overlap).1)
    (aranges (scanBBox m (tileLevelFor m spacing tol) contourBBox).y
      (scanStops m spacing tol tile_size contourBBox use_padding).2
      (refStepFor m spacing tol tile_size overlap).2)

/-- Keep decision per candidate: the tissue check, and, when `drop_holes` is
set, additionally not falling inside a hole. -/
def keepCoord (oracle : TissueOracle) (drop_holes : Bool) (c : ℤ × ℤ) : Bool :=
  if drop_holes then (oracle.check c).1 && !(oracle.inHoles c) else (oracle.check c).1

/-- Candidates retained by the boolean mask. -/
def keptCandidates (m : SlideMeta) (oracle : TissueOracle) (contourBBox : Option BBox)
    (spacing tol : ℚ) (tile_size : ℤ) (overlap : ℚ)
    (drop_holes use_padding : Bool) : List (ℤ × ℤ) :=
  (gridCandidates m spacing tol tile_size overlap contourBBox use_padding).filter
    (keepCoord oracle drop_holes)

/-- `WholeSlideImage.process_contour`: resolve the tile level, lay out the
candidate grid over the scan bounding box, apply the tissue check and the
optional hole exclusion, and return the retained tiles — or the all-`None`
sentinel when no tile qualifies. -/
def process_contour (m : SlideMeta) (oracle : TissueOracle) (contourBBox : Option BBox)
    (spacing tol : ℚ) (tile_size : ℤ) (overlap : ℚ)
    (drop_holes use_padding : Bool) : ContourResult :=
  if keptCandidates m oracle contourBBox spacing tol tile_size overlap drop_holes use_padding = []
  then ⟨[], [], none, none⟩
  else
    { coords := keptCandidates m oracle contourBBox spacing tol tile_size overlap drop_holes use_padding
      pcts := (keptCandidates m oracle contourBBox spacing tol tile_size overlap
          drop_holes use_padding).map (fun c => (oracle.check c).2)
      level := some (tileLevelFor m spacing tol)
      resize := some (resizeFactorFor m spacing tol) }

/-- C4: without padding, every emitted tile coordinate leaves room for a full
reference tile inside the level-0 extent; with padding, the candidate grid is
the unclipped grid over the scan bounding box — every grid point inside the
bounding box is generated regardless of the level-0 extent — and any candidate
the tissue check keeps is emitted. -/
theorem C4_boundary_policy (m : SlideMeta) (oracle : TissueOracle)
    (contourBBox : Option BBox) (spacing tol : ℚ) (tile_size : ℤ) (overlap : ℚ)
    (drop_holes : Bool) :
    (∀ c ∈ (process_contour m oracle contourBBox spacing tol tile_size overlap
        drop_holes false).coords,
      c.1 + (refTileSizeFor m spacing tol tile_size).1 ≤ (dimAt m 0).1 ∧
      c.2 + (refTileSizeFor m spacing tol tile_size).2 ≤ (dimAt m 0).2) ∧
    (∀ x y : ℤ,
      (∃ kx : ℕ, x = (scanBBox m (tileLevelFor m spacing tol) contourBBox).x +
        (refStepFor m spacing tol tile_size overlap).1 * (kx : ℤ)) →
      (∃ ky : ℕ, y = (scanBBox m (tileLevelFor m spacing tol) contourBBox).y +
        (refStepFor m spacing tol tile_size overlap).2 * (ky : ℤ)) →
      0 < (refStepFor m spacing tol tile_size overlap).1 →
      0 < (refStepFor m spacing tol tile_size overlap).2 →
      x < (scanBBox m (tileLevelFor m spacing tol) contourBBox).x +
        (scanBBox m (tileLevelFor m spacing tol) contourBBox).w →
      y < (scanBBox m (tileLevelFor m spacing tol) contourBBox).y +
        (scanBBox m (tileLevelFor m spacing tol) contourBBox).h →
      (x, y) ∈ gridCandidates m spacing tol tile_size overlap contourBBox true) ∧
    (∀ c ∈ gridCandidates m spacing tol tile_size overlap contourBBox true,
      keepCoord oracle drop_holes c = true →
      c ∈ (process_contour m oracle contourBBox spacing tol tile_size overlap
        drop_holes true).coords) := by
  refine ⟨?_, ?_, ?_⟩
  · intro c hc
    by_cases hk : keptCandidates m oracle contourBBox spacing tol tile_size overlap
        drop_holes false = []
    · unfold process_contour at hc
      rw [if_pos hk] at hc
      simp at hc
    · unfold process_contour at hc
      rw [if_neg hk] at hc
      dsimp only at hc
      obtain ⟨a, b⟩ := c
      simp only [keptCandidates] at hc
      have hcand := (List.mem_filter.mp hc).1
      simp only [gridCandidates] at hcand
      rw [mem_coordCandidates] at hcand
      obtain ⟨ha, hb⟩ := hcand
      have hba := mem_aranges_bounds ha
      have hbb := mem_aranges_bounds hb
      simp [scanStops] at hba hbb
      exact ⟨by omega, by omega⟩
  · rintro x y ⟨kx, rfl⟩ ⟨ky, rfl⟩ hsx hsy hx hy
    simp only [gridCandidates]
    rw [mem_coordCandidates]
    have hstop1 : (scanStops m spacing tol tile_size contourBBox true).1 =
        (scanBBox m (tileLevelFor m spacing tol) contourBBox).x +
          (scanBBox m (tileLevelFor m spacing tol) contourBBox).w := by
      simp [scanStops]
    have hstop2 : (scanStops m spacing tol tile_size contourBBox true).2 =
        (scanBBox m (tileLevelFor m spacing tol) contourBBox).y +
          (scanBBox m (tileLevelFor m spacing tol) contourBBox).h := by
      simp [scanStops]
    rw [hstop1, hstop2]
    exact ⟨aranges_mem_of_lt kx hsx hx, aranges_mem_of_lt ky hsy hy⟩
  · intro c hc hkeep
    have hmem : c ∈ keptCandidates m oracle contourBBox spacing tol tile_size overlap
        drop_holes true :=
      List.mem_filter.mpr ⟨hc, hkeep⟩
    have hne : keptCandidates m oracle contourBBox spacing tol tile_size overlap
        drop_holes true ≠ [] := by
      intro h
      rw [h] at hmem
      simp at hmem
    unfold process_contour
    rw [if_neg hne]
    exact hmem

/-- A one-level slide whose level-0 width (93) is not a multiple of the tile
stride, used by the C4 witness: with padding, tile (90, 70) is generated even
though it extends past the slide's right edge. -/
def exMeta4 : SlideMeta :=
  { spacings := [1]
    levelDimensions := [(93, 80)]
    segLevel := 0 }

theorem exMeta4_best : get_best_level_for_spacing exMeta4 1 0 = (0, true) := by
  have hds : levelDownsamples exMeta4 = [(1, 1)] := by
    norm_num [levelDownsamples, exMeta4]
  have hmap : (levelDownsamples exMeta4).map
      (fun p => |p.1 - 1 / spacingAt exMeta4 0|) = [0] := by
    rw [hds]
    norm_num [spacingAt, exMeta4]
  unfold get_best_level_for_spacing get_best_level_for_downsample_custom
  rw [hmap]
  have ha : argmin [0] = 0 := by norm_num [argmin]
  rw [ha]
  have hws : withinTol (spacingAt exMeta4 0) 1 0 = true := by
    simp only [withinTol, decide_eq_true_eq]
    norm_num [spacingAt, exMeta4]
  simp [hws]

theorem exMeta4_refstep : refStepFor exMeta4 1 0 10 0 = (10, 10) := by
  have hds : levelDownsamples exMeta4 = [(1, 1)] := by
    norm_num [levelDownsamples, exMeta4]
  have hlvl : tileLevelFor exMeta4 1 0 = 0 := by
    rw [tileLevelFor, exMeta4_best]
  have hrf : resizeFactorFor exMeta4 1 0 = 1 := by
    rw [resizeFactorFor, exMeta4_best]
    simp
  have htsr : tileSizeResizedFor exMeta4 1 0 10 = 10 := by
    rw [tileSizeResizedFor, hrf]
    norm_num [intTrunc]
  have hss : stepSizeFor exMeta4 1 0 10 0 = 10 := by
    rw [stepSizeFor, htsr]
    norm_num [intTrunc]
  have htd : tileDownsampleFor exMeta4 0 = (1, 1) := by
    unfold tileDownsampleFor downsampleAt
    rw [hds]
    norm_num [intTrunc]
  rw [refStepFor, hss, hlvl, htd]
  norm_num

theorem C4_boundary_policy_witness :
    ((90 : ℤ), (70 : ℤ)) ∈ gridCandidates exMeta4 1 0 10 0 (some ⟨0, 0, 95, 80⟩) true := by
  have h2 := (C4_boundary_policy exMeta4 ⟨fun _ => (true, 1), fun _ => false⟩
    (some ⟨0, 0, 95, 80⟩) 1 0 10 0 false).2.1
  have hx : (90 : ℤ) = (scanBBox exMeta4 (tileLevelFor exMeta4 1 0) (some ⟨0, 0, 95, 80⟩)).x +
      (refStepFor exMeta4 1 0 10 0).1 * ((9 : ℕ) : ℤ) := by
    rw [exMeta4_refstep]
    simp [scanBBox]
  have hy : (70 : ℤ) = (scanBBox exMeta4 (tileLevelFor exMeta4 1 0) (some ⟨0, 0, 95, 80⟩)).y +
      (refStepFor exMeta4 1 0 10 0).2 * ((7 : ℕ) : ℤ) := by
    rw [exMeta4_refstep]
    simp [scanBBox]
  exact h2 90 70 ⟨9, hx⟩ ⟨7, hy⟩
    (by rw [exMeta4_refstep]; norm_num)
    (by rw [exMeta4_refstep]; norm_num)
    (by simp [scanBBox])
    (by simp [scanBBox])

/-- The whole-slide scan bounding box as claim C5 words it: the full level-0
extent of the slide (the tile-level dimensions translated back into level-0
units).  Stated from the spec's words for comparison against the code's
`scanBBox`. -/
def specWholeSlideBBox (m : SlideMeta) : BBox :=
  ⟨0, 0, (dimAt m 0).1, (dimAt m 0).2⟩

/-- A two-level pyramid used by the C5 counterexample and witness: level 1
halves both dimensions, so its raw dimensions (50, 40) differ from the level-0
extent (100, 80). -/
def exMeta5 : SlideMeta :=
  { spacings := [1, 2]
    levelDimensions := [(100, 80), (50, 40)]
    segLevel := 0 }

theorem exMeta5_best : get_best_level_for_spacing exMeta5 2 0 = (1, true) := by
  have hds : levelDownsamples exMeta5 = [(1, 1), (2, 2)] := by
    norm_num [levelDownsamples, exMeta5]
  have hmap : (levelDownsamples exMeta5).map
      (fun p => |p.1 - 2 / spacingAt exMeta5 0|) = [1, 0] := by
    rw [hds]
    norm_num [spacingAt, exMeta5]
  unfold get_best_level_for_spacing get_best_level_for_downsample_custom
  rw [hmap]
  have ha : argmin [1, 0] = 1 := by norm_num [argmin, listMin]
  rw [ha]
  have hws : withinTol (spacingAt exMeta5 1) 2 0 = true := by
    simp only [withinTol, decide_eq_true_eq]
    norm_num [spacingAt, exMeta5]
  simp [hws]

/-- C5 counterexample: with the tile level resolved to level 1 of `exMeta5`,
the whole-slide scan bounding box is `(0, 0, 50, 40)` — the raw level-1 pixel
dimensions — not the full level-0 extent `(0, 0, 100, 80)` the claim
describes. -/
theorem C5_whole_slide_scan_cex :
    scanBBox exMeta5 (tileLevelFor exMeta5 2 0) none ≠ specWholeSlideBBox exMeta5 := by
  have hlvl : tileLevelFor exMeta5 2 0 = 1 := by
    rw [tileLevelFor, exMeta5_best]
  rw [hlvl]
  intro h
  have hw : (dimAt exMeta5 1).1 = (dimAt exMeta5 0).1 := congrArg BBox.w h
  norm_num [dimAt, exMeta5] at hw

/-- C5 (amended): in whole-slide mode the scan bounding box starts at the
origin and spans the raw pixel dimensions of the resolved tile level, used
directly as level-0 lengths with no downsample rescaling; consequently every
candidate tile coordinate lies inside `[0, dims[tileLevel])` per axis. -/
theorem C5_whole_slide_scan (m : SlideMeta) (spacing tol : ℚ) (tile_size : ℤ)
    (overlap : ℚ) :
    scanBBox m (tileLevelFor m spacing tol) none =
      ⟨0, 0, (dimAt m (tileLevelFor m spacing tol)).1,
        (dimAt m (tileLevelFor m spacing tol)).2⟩ ∧
    ∀ c ∈ gridCandidates m spacing tol tile_size overlap none true,
      0 ≤ c.1 ∧ c.1 < (dimAt m (tileLevelFor m spacing tol)).1 ∧
      0 ≤ c.2 ∧ c.2 < (dimAt m (tileLevelFor m spacing tol)).2 := by
  refine ⟨rfl, ?_⟩
  intro c hc
  obtain ⟨a, b⟩ := c
  simp only [gridCandidates] at hc
  rw [mem_coordCandidates] at hc
  obtain ⟨ha, hb⟩ := hc
  have hba := mem_aranges_bounds ha
  have hbb := mem_aranges_bounds hb
  simp [scanStops, scanBBox] at hba hbb
  refine ⟨?_, ?_, ?_, ?_⟩ <;> omega

theorem exMeta5_refstep : refStepFor exMeta5 2 0 10 0 = (20, 20) := by
  have hds : levelDownsamples exMeta5 = [(1, 1), (2, 2)] := by
    norm_num [levelDownsamples, exMeta5]
  have hlvl : tileLevelFor exMeta5 2 0 = 1 := by
    rw [tileLevelFor, exMeta5_best]
  have hrf : resizeFactorFor exMeta5 2 0 = 1 := by
    rw [resizeFactorFor, exMeta5_best]
    simp
  have htsr : tileSizeResizedFor exMeta5 2 0 10 = 10 := by
    rw [tileSizeResizedFor, hrf]
    norm_num [intTrunc]
  have hss : stepSizeFor exMeta5 2 0 10 0 = 10 := by
    rw [stepSizeFor, htsr]
    norm_num [intTrunc]
  have htd : tileDownsampleFor exMeta5 1 = (2, 2) := by
    unfold tileDownsampleFor downsampleAt
    rw [hds]
    norm_num [intTrunc]
  rw [refStepFor, hss, hlvl, htd]
  norm_num

theorem C5_whole_slide_scan_witness :
    0 ≤ (40 : ℤ) ∧ (40 : ℤ) < (dimAt exMeta5 (tileLevelFor exMeta5 2 0)).1 ∧
    0 ≤ (20 : ℤ) ∧ (20 : ℤ) < (dimAt exMeta5 (tileLevelFor exMeta5 2 0)).2 := by
  have hlvl : tileLevelFor exMeta5 2 0 = 1 := by
    rw [tileLevelFor, exMeta5_best]
  refine (C5_whole_slide_scan exMeta5 2 0 10 0).2 (40, 20) ?_
  simp only [gridCandidates]
  rw [mem_coordCandidates]
  have hdim : dimAt exMeta5 1 = (50, 40) := by norm_num [dimAt, exMeta5]
  have hstop : scanStops exMeta5 2 0 10 none true = (50, 40) := by
    simp [scanStops, scanBBox, hlvl, hdim]
  have hbx : (scanBBox exMeta5 (tileLevelFor exMeta5 2 0) none).x = 0 := by
    simp [scanBBox]
  have hby : (scanBBox exMeta5 (tileLevelFor exMeta5 2 0) none).y = 0 := by
    simp [scanBBox]
  rw [hstop, hbx, hby, exMeta5_refstep]
  constructor
  · have h40 : (40 : ℤ) = 0 + 20 * ((2 : ℕ) : ℤ) := by norm_num
    rw [h40]
    exact aranges_mem_of_lt 2 (by norm_num) (by norm_num)
  · have h20 : (20 : ℤ) = 0 + 20 * ((1 : ℕ) : ℤ) := by norm_num
    rw [h20]
    exact aranges_mem_of_lt 1 (by norm_num) (by norm_num)

/-- Accumulator of the merge loop in `process_contours`. -/
structure MergeAcc where
  coords : List (ℤ × ℤ)
  pcts : List ℚ
  tl : Option ℕ
  rf : Option ℚ
deriving DecidableEq

/-- The message of the `assert` in `process_contours`. -/
def levelAssertMsg : String := "Tile level should be the same for all contours"

/-- The merge loop of `process_contours`: results with at least one tile must
agree with the running tile level (a fatal `assert` otherwise), empty results
are skipped, and the running level and resize factor take the value of the
last non-empty result. -/
def mergeAux : MergeAcc → List ContourResult → Except String MergeAcc
  | s, [] => Except.ok s
  | s, r :: rs =>
    if r.coords.length > 0 then
      if s.tl.isSome ∧ s.tl ≠ r.level then Except.error levelAssertMsg
      else mergeAux ⟨s.coords ++ r.coords, s.pcts ++ r.pcts, r.level, r.resize⟩ rs
    else mergeAux s rs

/-- The merge phase of `process_contours`, started from the empty accumulator
(`tile_level = None`, `resize_factor = None`). -/
def mergeResults (rs : List ContourResult) : Except String MergeAcc :=
  mergeAux ⟨[], [], none, none⟩ rs

theorem mergeAux_error_msg :
    ∀ (rs : List ContourResult) (s : MergeAcc) (e : String),
      mergeAux s rs = Except.error e → e = levelAssertMsg := by
  intro rs
  induction rs with
  | nil => intro s e h; exact absurd h (by simp [mergeAux])
  | cons r rest ih =>
    intro s e h
    rw [mergeAux] at h
    by_cases hr : r.coords.length > 0
    · rw [if_pos hr] at h
      by_cases hchk : s.tl.isSome ∧ s.tl ≠ r.level
      · rw [if_pos hchk] at h
        injection h with h2
        exact h2.symm
      · rw [if_neg hchk] at h
        exact ih _ e h
    · rw [if_neg hr] at h
      exact ih s e h

theorem mergeAux_tl_of_some :
    ∀ (rs : List ContourResult) (s s2 : MergeAcc) (l : ℕ),
      mergeAux s rs = Except.ok s2 → s.tl = some l → s2.tl = some l := by
  intro rs
  induction rs with
  | nil =>
    intro s s2 l h hs
    rw [mergeAux] at h
    injection h with h2
    rw [← h2, hs]
  | cons r rest ih =>
    intro s s2 l h hs
    rw [mergeAux] at h
    by_cases hr : r.coords.length > 0
    · rw [if_pos hr] at h
      by_cases hchk : s.tl.isSome ∧ s.tl ≠ r.level
      · rw [if_pos hchk] at h
        exact absurd h (by simp)
      · rw [if_neg hchk] at h
        push_neg at hchk
        have hlev : r.level = some l := by
          rw [← hchk (by rw [hs]; exact rfl), hs]
        exact ih _ s2 l h hlev
    · rw [if_neg hr] at h
      exact ih s s2 l h hs

theorem mergeAux_ok_levels :
    ∀ (rs : List ContourResult) (s s2 : MergeAcc),
      mergeAux s rs = Except.ok s2 →
      (∀ r ∈ rs, r.coords ≠ [] → (r.level).isSome) →
      ∀ r ∈ rs, r.coords ≠ [] → r.level = s2.tl := by
  intro rs
  induction rs with
  | nil => intro s s2 h hsome r hr; simp at hr
  | cons r0 rest ih =>
    intro s s2 h hsome r hr hne
    rw [mergeAux] at h
    by_cases hr0 : r0.coords.length > 0
    · rw [if_pos hr0] at h
      by_cases hchk : s.tl.isSome ∧ s.tl ≠ r0.level
      · rw [if_pos hchk] at h
        exact absurd h (by simp)
      · rw [if_neg hchk] at h
        have hne0 : r0.coords ≠ [] := by
          intro habs
          rw [habs] at hr0
          simp at hr0
        obtain ⟨l0, hl0⟩ := Option.isSome_iff_exists.mp
          (hsome r0 (List.mem_cons_self _ _) hne0)
        rcases List.mem_cons.mp hr with rfl | hrmem
        · rw [hl0]
          exact (mergeAux_tl_of_some rest _ s2 l0 h (by simpa using hl0)).symm
        · exact ih _ s2 h (fun x hx => hsome x (List.mem_cons_of_mem _ hx)) r hrmem hne
    · rw [if_neg hr0] at h
      rcases List.mem_cons.mp hr with rfl | hrmem
      · exfalso
        apply hne
        cases hcz : r.coords with
        | nil => rfl
        | cons a b =>
          rw [hcz] at hr0
          simp at hr0
      · exact ih s s2 h (fun x hx => hsome x (List.mem_cons_of_mem _ hx)) r hrmem hne

theorem mergeAux_ok_of_uniform :
    ∀ (rs : List ContourResult) (s : MergeAcc) (L : ℕ) (R : ℚ),
      (∀ r ∈ rs, r.coords ≠ [] → r.level = some L ∧ r.resize = some R) →
      ((s.tl = none ∧ s.rf = none) ∨ (s.tl = some L ∧ s.rf = some R)) →
      ∃ s2, mergeAux s rs = Except.ok s2 ∧
        ((∀ r ∈ rs, r.coords = []) → s2.tl = s.tl ∧ s2.rf = s.rf) ∧
        ((∃ r ∈ rs, r.coords ≠ []) → s2.tl = some L ∧ s2.rf = some R) := by
  intro rs
  induction rs with
  | nil =>
    intro s L R hu hs
    exact ⟨s, by rw [mergeAux], fun _ => ⟨rfl, rfl⟩, by simp⟩
  | cons r0 rest ih =>
    intro s L R hu hs
    by_cases hr0 : r0.coords.length > 0
    · have hne0 : r0.coords ≠ [] := by
        intro habs
        rw [habs] at hr0
        simp at hr0
      obtain ⟨hl0, hrf0⟩ := hu r0 (List.mem_cons_self _ _) hne0
      have hchk : ¬ (s.tl.isSome ∧ s.tl ≠ r0.level) := by
        rcases hs with ⟨hstl, _⟩ | ⟨hstl, _⟩
        · intro hx
          rw [hstl] at hx
          simp at hx
        · intro hx
          rw [hstl, hl0] at hx
          simp at hx
      obtain ⟨s2, hok, hempty, hnonempty⟩ :=
        ih ⟨s.coords ++ r0.coords, s.pcts ++ r0.pcts, r0.level, r0.resize⟩ L R
          (fun x hx hne => hu x (List.mem_cons_of_mem _ hx) hne)
          (Or.inr ⟨by simpa using hl0, by simpa using hrf0⟩)
      refine ⟨s2, ?_, ?_, ?_⟩
      · rw [mergeAux, if_pos hr0, if_neg hchk]
        exact hok
      · intro hall
        exact absurd (hall r0 (List.mem_cons_self _ _)) hne0
      · intro _
        by_cases hrest : ∃ x ∈ rest, x.coords ≠ []
        · exact hnonempty hrest
        · push_neg at hrest
          have := hempty hrest
          constructor
          · rw [this.1]
            simpa using hl0
          · rw [this.2]
            simpa using hrf0
    · have hz : r0.coords = [] := by
        cases hcz : r0.coords with
        | nil => rfl
        | cons a b => rw [hcz] at hr0; simp at hr0
      obtain ⟨s2, hok, hempty, hnonempty⟩ :=
        ih s L R (fun x hx hne => hu x (List.mem_cons_of_mem _ hx) hne) hs
      refine ⟨s2, ?_, ?_, ?_⟩
      · rw [mergeAux, if_neg hr0]
        exact hok
      · intro hall
        exact hempty (fun x hx => hall x (List.mem_cons_of_mem _ hx))
      · rintro ⟨x, hx, hxne⟩
        rcases List.mem_cons.mp hx with rfl | hxmem
        · exact absurd hz hxne
        · exact hnonempty ⟨x, hxmem, hxne⟩

/-- C6: if two per-contour results that each produced at least one tile report
different tile levels, the merge of `process_contours` fails with the fatal
assertion; when all non-empty results agree on level `L` and resize factor
`R`, the merge succeeds and reports `(L, R)`, ignoring empty (sentinel)
results. -/
theorem C6_level_consistency (rs : List ContourResult)
    (hsome : ∀ r ∈ rs, r.coords ≠ [] → (r.level).isSome) :
    ((∃ r1 ∈ rs, ∃ r2 ∈ rs, r1.coords ≠ [] ∧ r2.coords ≠ [] ∧ r1.level ≠ r2.level) →
      mergeResults rs = Except.error levelAssertMsg) ∧
    (∀ L R, (∀ r ∈ rs, r.coords ≠ [] → r.level = some L ∧ r.resize = some R) →
      (∃ r ∈ rs, r.coords ≠ []) →
      ∃ s, mergeResults rs = Except.ok s ∧ s.tl = some L ∧ s.rf = some R) := by
  constructor
  · rintro ⟨r1, h1, r2, h2, hne1, hne2, hll⟩
    cases hm : mergeResults rs with
    | ok s =>
      exfalso
      have e1 := mergeAux_ok_levels rs _ s hm hsome r1 h1 hne1
      have e2 := mergeAux_ok_levels rs _ s hm hsome r2 h2 hne2
      rw [← e2] at e1
      exact hll e1
    | error e =>
      rw [mergeAux_error_msg rs ⟨[], [], none, none⟩ e hm]
  · intro L R huni hex
    obtain ⟨s2, hok, _, hnonempty⟩ :=
      mergeAux_ok_of_uniform rs ⟨[], [], none, none⟩ L R huni (Or.inl ⟨rfl, rfl⟩)
    obtain ⟨htl, hrf⟩ := hnonempty hex
    exact ⟨s2, hok, htl, hrf⟩

/-- Per-contour results used by the C6 witness: one empty sentinel and two
non-empty results agreeing on tile level 1 and resize factor 1. -/
def exResults6 : List ContourResult :=
  [⟨[], [], none, none⟩, ⟨[(0, 0)], [1], some 1, some 1⟩, ⟨[(5, 5)], [1], some 1, some 1⟩]

theorem C6_level_consistency_witness :
    ∃ s, mergeResults exResults6 = Except.ok s ∧ s.tl = some 1 ∧ s.rf = some 1 :=
  (C6_level_consistency exResults6
      (by intro r hr hne; fin_cases hr <;> simp_all [exResults6])).2 1 1
    (by intro r hr hne; fin_cases hr <;> simp_all [exResults6])
    ⟨⟨[(0, 0)], [1], some 1, some 1⟩, by simp [exResults6], by simp⟩

/-- `executor.map` of the thread pool returns results in submission order
regardless of the pool size, so the dispatcher's per-contour result list is
the ordered map of the per-contour processing function; the worker count only
sizes the pool. -/
def parMapContours (num_workers : ℕ) (f : ℕ → ContourResult) (n : ℕ) : List ContourResult :=
  (List.range n).map f

/-- `WholeSlideImage.process_contours`: run the per-contour processing over
the submitted contours and merge the results in submission order. -/
def process_contours (num_workers : ℕ) (f : ℕ → ContourResult) (n : ℕ) :
    Except String MergeAcc :=
  mergeResults (parMapContours num_workers f n)

/-- One completion schedule of the worker pool: tasks finish in the order
given, each result being stored at its task index (collect-by-index). -/
def runSchedule (f : ℕ → ContourResult) (n : ℕ) (order : List ℕ) :
    List (Option ContourResult) :=
  order.foldl (fun acc i => acc.set i (some (f i))) (List.replicate n none)

theorem getD_set_eq {α : Type} :
    ∀ (l : List α) (i j : ℕ) (a d : α),
      (l.set i a).getD j d = if i = j ∧ i < l.length then a else l.getD j d := by
  intro l
  induction l with
  | nil => intro i j a d; simp
  | cons x xs ih =>
    intro i j a d
    cases i with
    | zero =>
      cases j with
      | zero => simp
      | succ j2 => simp [List.getD]
    | succ i2 =>
      cases j with
      | zero => simp [List.getD]
      | succ j2 =>
        simp only [List.set_cons_succ, List.getD_cons_succ, List.length_cons]
        rw [ih]
        by_cases h1 : i2 = j2
        · by_cases h2 : i2 < xs.length
          · have ha : i2 + 1 = j2 + 1 := by omega
            have hb : i2 + 1 < xs.length + 1 := by omega
            simp [h1, h2, ha, hb]
          · have hb : ¬ (i2 + 1 < xs.length + 1) := by omega
            simp [h1, h2, hb]
        · have ha : ¬ (i2 + 1 = j2 + 1) := by omega
          simp [h1, ha]

theorem schedule_fold_length (f : ℕ → ContourResult) :
    ∀ (order : List ℕ) (acc : List (Option ContourResult)),
      (order.foldl (fun a i => a.set i (some (f i))) acc).length = acc.length := by
  intro order
  induction order with
  | nil => intro acc; rfl
  | cons i rest ih =>
    intro acc
    rw [List.foldl_cons, ih, List.length_set]

theorem schedule_fold_getD (f : ℕ → ContourResult) :
    ∀ (order : List ℕ) (acc : List (Option ContourResult)) (j : ℕ), j < acc.length →
      (order.foldl (fun a i => a.set i (some (f i))) acc).getD j none =
        if j ∈ order then some (f j) else acc.getD j none := by
  intro order
  induction order with
  | nil => intro acc j hj; simp
  | cons i rest ih =>
    intro acc j hj
    rw [List.foldl_cons]
    rw [ih (acc.set i (some (f i))) j (by rw [List.length_set]; exact hj)]
    by_cases hrest : j ∈ rest
    · simp [hrest]
    · rw [getD_set_eq]
      by_cases hij : i = j
      · subst hij
        simp [hrest, hj]
      · have hji : ¬ (j = i) := fun hh => hij hh.symm
        simp [hrest, hij, hji]

theorem getD_eq_getElem_lt {α : Type} :
    ∀ (l : List α) (j : ℕ) (d : α) (h : j < l.length), l.getD j d = l[j] := by
  intro l
  induction l with
  | nil => intro j d h; simp at h
  | cons x xs ih =>
    intro j d h
    cases j with
    | zero => simp [List.getD]
    | succ j2 => simpa [List.getD] using ih j2 d (by simpa using h)

theorem runSchedule_perm_eq (f : ℕ → ContourResult) (n : ℕ) (order : List ℕ)
    (h : order.Perm (List.range n)) :
    runSchedule f n order = (List.range n).map (fun i => some (f i)) := by
  have hlen1 : (runSchedule f n order).length = n := by
    rw [runSchedule, schedule_fold_length, List.length_replicate]
  have hlen2 : ((List.range n).map (fun i => some (f i))).length = n := by simp
  apply List.ext_getElem (by rw [hlen1, hlen2])
  intro j h1 h2
  have hj : j < n := by rw [hlen1] at h1; exact h1
  have hd := schedule_fold_getD f order (List.replicate n none) j (by simp [hj])
  have hmem : j ∈ order := h.mem_iff.mpr (List.mem_range.mpr hj)
  rw [if_pos hmem] at hd
  calc (runSchedule f n order)[j]
      = (runSchedule f n order).getD j none := (getD_eq_getElem_lt _ j none h1).symm
    _ = some (f j) := by rw [runSchedule]; exact hd
    _ = ((List.range n).map (fun i => some (f i)))[j] := by simp

/-- C7: for a fixed per-contour processing function, the collect-by-index
result of any completion schedule equals the submission-order map, any two
schedules agree, and the merged `process_contours` output does not depend on
the worker-pool size; with everything pure, two identical calls are literally
the same value. -/
theorem C7_schedule_independence (f : ℕ → ContourResult) (n w1 w2 : ℕ)
    (order1 order2 : List ℕ)
    (h1 : order1.Perm (List.range n)) (h2 : order2.Perm (List.range n)) :
    runSchedule f n order1 = (List.range n).map (fun i => some (f i)) ∧
    runSchedule f n order1 = runSchedule f n order2 ∧
    process_contours w1 f n = process_contours w2 f n := by
  refine ⟨runSchedule_perm_eq f n order1 h1, ?_, rfl⟩
  rw [runSchedule_perm_eq f n order1 h1, runSchedule_perm_eq f n order2 h2]

/-- Per-contour task used by the C7 witness. -/
def exTask : ℕ → ContourResult := fun i => ⟨[((i : ℤ), 0)], [1], some 0, some 1⟩

theorem C7_schedule_independence_witness :
    runSchedule exTask 2 [1, 0] = (List.range 2).map (fun i => some (exTask i)) ∧
    runSchedule exTask 2 [1, 0] = runSchedule exTask 2 [0, 1] ∧
    process_contours 1 exTask 2 = process_contours 4 exTask 2 :=
  C7_schedule_independence exTask 2 1 4 [1, 0] [0, 1] (by decide) (by decide)

/-- `tile_size_lv0 = int(tile_size * (spacing / get_level_spacing(0)))` from
`get_tile_coordinates`, computed directly from the target spacing before any
level is resolved. -/
def tileSizeLv0 (m : SlideMeta) (spacing : ℚ) (tile_size : ℤ) : ℤ :=
  intTrunc ((tile_size : ℚ) * (spacing / spacingAt m 0))

/-- `WholeSlideImage.get_tile_coordinates`, downstream of contour detection:
merge the per-contour results in submission order and return the zipped
coordinates, tissue percentages, tile level, resize factor, and the level-0
tile size. -/
def get_tile_coordinates (m : SlideMeta) (spacing : ℚ) (tile_size : ℤ)
    (results : List ContourResult) :
    Except String (List (ℤ × ℤ) × List ℚ × Option ℕ × Option ℚ × ℤ) :=
  match mergeResults results with
  | Except.ok s => Except.ok (s.coords, s.pcts, s.tl, s.rf, tileSizeLv0 m spacing tile_size)
  | Except.error e => Except.error e

theorem mergeAux_all_empty :
    ∀ (rs : List ContourResult) (s : MergeAcc), (∀ r ∈ rs, r.coords = []) →
      mergeAux s rs = Except.ok s := by
  intro rs
  induction rs with
  | nil => intro s _; rw [mergeAux]
  | cons r rest ih =>
    intro s h
    have hr : r.coords = [] := h r (List.mem_cons_self _ _)
    rw [mergeAux, if_neg (by simp [hr])]
    exact ih s (fun x hx => h x (List.mem_cons_of_mem _ hx))

/-- C10: if the tissue check keeps no candidate, `process_contour` returns the
empty sentinel `([], [], None, None)`; and when every per-contour result is
empty (in particular when there are no contours at all), `get_tile_coordinates`
succeeds with empty lists, `tile_level = None`, `resize_factor = None`, and
`tile_size_lv0 = int(tile_size * spacing / spacingOf(0))` computed directly
from the target spacing. -/
theorem C10_empty_request (m : SlideMeta) (oracle : TissueOracle)
    (contourBBox : Option BBox) (spacing tol : ℚ) (tile_size : ℤ) (overlap : ℚ)
    (drop_holes use_padding : Bool) (results : List ContourResult) :
    ((∀ c, (oracle.check c).1 = false) →
      process_contour m oracle contourBBox spacing tol tile_size overlap
        drop_holes use_padding = ⟨[], [], none, none⟩) ∧
    ((∀ r ∈ results, r.coords = []) →
      get_tile_coordinates m spacing tile_size results =
        Except.ok ([], [], none, none,
          intTrunc ((tile_size : ℚ) * (spacing / spacingAt m 0)))) := by
  constructor
  · intro hfalse
    have hkept : keptCandidates m oracle contourBBox spacing tol tile_size overlap
        drop_holes use_padding = [] := by
      unfold keptCandidates
      refine List.filter_eq_nil_iff.mpr ?_
      intro a _
      unfold keepCoord
      cases drop_holes <;> simp [hfalse a]
    unfold process_contour
    rw [if_pos hkept]
  · intro hempty
    have hmerge : mergeResults results = Except.ok ⟨[], [], none, none⟩ :=
      mergeAux_all_empty results ⟨[], [], none, none⟩ hempty
    unfold get_tile_coordinates
    rw [hmerge]
    rfl

/-- The all-reject tissue oracle used by the C10 witness. -/
def nullOracle : TissueOracle := ⟨fun _ => (false, 0), fun _ => false⟩

theorem C10_empty_request_witness :
    process_contour exMeta4 nullOracle none 1 0 10 0 false true = ⟨[], [], none, none⟩ ∧
    get_tile_coordinates exMeta4 1 10 [⟨[], [], none, none⟩] =
      Except.ok ([], [], none, none,
        intTrunc (((10 : ℤ) : ℚ) * ((1 : ℚ) / spacingAt exMeta4 0))) := by
  have h := C10_empty_request exMeta4 nullOracle none 1 0 10 0 false true
    [⟨[], [], none, none⟩]
  exact ⟨h.1 (fun c => rfl), h.2 (by intro r hr; fin_cases hr; rfl)⟩

/-- Arguments of one `get_best_level_for_spacing` call, for the process-wide
diagnostic model. -/
structure SpacingCall where
  meta : SlideMeta
  target : ℚ
  tol : ℚ
  verbose : Bool

/-- The condition of the warning block at the end of
`get_best_level_for_spacing`: the finally reached level's spacing still fails
the tolerance test and `verbose` is set. -/
def warnCondition (c : SpacingCall) : Bool :=
  !(withinTol (spacingAt c.meta (get_best_level_for_spacing c.meta c.target c.tol).1)
      c.target c.tol) && c.verbose

/-- Effect of one call on the `_printed_warning` flag, under the
`_warning_lock` mutex: print (count 1) only when the condition holds and the
flag is still unset, then set the flag. -/
def warnStep (c : SpacingCall) (printed : Bool) : Bool × ℕ :=
  if warnCondition c && !printed then (true, 1) else (printed, 0)

/-- A sequence of (mutex-serialized) calls starting from a given flag state:
final flag and total number of printed diagnostics. -/
def runWarnCalls : List SpacingCall → Bool → Bool × ℕ
  | [], printed => (printed, 0)
  | c :: cs, printed =>
    ((runWarnCalls cs (warnStep c printed).1).1,
     (warnStep c printed).2 + (runWarnCalls cs (warnStep c printed).1).2)

theorem runWarnCalls_printed : ∀ (calls : List SpacingCall), (runWarnCalls calls true).2 = 0 := by
  intro calls
  induction calls with
  | nil => rfl
  | cons c cs ih =>
    have hstep : warnStep c true = (true, 0) := by
      unfold warnStep
      simp
    rw [runWarnCalls, hstep]
    simpa using ih

/-- C8: over any sequence of `get_best_level_for_spacing` calls executed from
the initial unset flag — the mutex serializes concurrent callers into such a
sequence, each check-and-set being atomic — the tolerance-miss diagnostic is
printed at most once for the lifetime of the process. -/
theorem C8_warning_at_most_once (calls : List SpacingCall) :
    (runWarnCalls calls false).2 ≤ 1 := by
  induction calls with
  | nil => simp [runWarnCalls]
  | cons c cs ih =>
    cases hwc : warnCondition c with
    | false =>
      have hstep : warnStep c false = (false, 0) := by
        unfold warnStep
        simp [hwc]
      rw [runWarnCalls, hstep]
      simpa using ih
    | true =>
      have hstep : warnStep c false = (true, 1) := by
        unfold warnStep
        simp [hwc]
      rw [runWarnCalls, hstep]
      simp [runWarnCalls_printed cs]

/-- Python list indexing on the spacings list: nonnegative indices must be
below the length, negative indices from `-len` to `-1` wrap around to the end,
and anything else raises `IndexError`. -/
def pyListGet (l : List ℚ) (i : ℤ) : Except String ℚ :=
  if 0 ≤ i ∧ i < l.length then Except.ok (l.getD i.toNat 0)
  else if -(l.length : ℤ) ≤ i ∧ i < 0 then Except.ok (l.getD (i + l.length).toNat 0)
  else Except.error "IndexError"

/-- `WholeSlideImage.get_level_spacing` with its `_level_spacing_cache`: a
cache hit returns the stored value, a miss indexes `self.spacings` with Python
semantics and stores the result. -/
def get_level_spacing (m : SlideMeta) (cache : List (ℤ × ℚ)) (level : ℤ) :
    Except String (ℚ × List (ℤ × ℚ)) :=
  match cache.lookup level with
  | some v => Except.ok (v, cache)
  | none =>
    match pyListGet m.spacings level with
    | Except.ok v => Except.ok (v, (level, v) :: cache)
    | Except.error e => Except.error e

theorem lookup_mem : ∀ (l : List (ℤ × ℚ)) (a : ℤ) (v : ℚ),
    l.lookup a = some v → (a, v) ∈ l := by
  intro l
  induction l with
  | nil => intro a v h; simp [List.lookup] at h
  | cons p rest ih =>
    intro a v h
    obtain ⟨k, b⟩ := p
    rw [List.lookup] at h
    by_cases hk : (a == k) = true
    · rw [hk] at h
      simp at h
      have hak : a = k := beq_iff_eq.mp hk
      rw [hak, h]
      exact List.mem_cons_self _ _
    · rw [Bool.not_eq_true] at hk
      rw [hk] at h
      exact List.mem_cons_of_mem _ (ih a v (by simpa using h))

/-- C9 counterexample: on the three-level `exMeta`, `get_level_spacing` at the
negative index `-1` succeeds with the last level's spacing (Python negative
indexing) instead of raising `IndexError` as the claim states for every index
outside the valid pyramid range. -/
theorem C9_negative_index_cex :
    get_level_spacing exMeta [] (-1) = Except.ok (8, [(-1, 8)]) := rfl

/-- C9 (amended): `get_level_spacing` raises `IndexError` exactly for indices
at or above the level count or strictly below the negated level count; every
other index — including negative indices from `-numLevels` to `-1`, which wrap
around to the corresponding level from the end — returns the memoized spacing
of the indexed level (any cache consistent with the spacings list gives the
same value). -/
theorem C9_level_spacing_indexing (m : SlideMeta) (cache : List (ℤ × ℚ)) (level : ℤ)
    (hc : ∀ p ∈ cache, pyListGet m.spacings p.1 = Except.ok p.2) :
    (((m.spacings.length : ℤ) ≤ level ∨ level < -(m.spacings.length : ℤ)) →
      get_level_spacing m cache level = Except.error "IndexError") ∧
    (-(m.spacings.length : ℤ) ≤ level → level < (m.spacings.length : ℤ) →
      ∃ c2, get_level_spacing m cache level =
        Except.ok (m.spacings.getD
          (if level < 0 then (level + m.spacings.length).toNat else level.toNat) 0, c2)) := by
  cases hl : cache.lookup level with
  | some v =>
    have hpy := hc (level, v) (lookup_mem cache level v hl)
    dsimp only at hpy
    constructor
    · intro hout
      exfalso
      unfold pyListGet at hpy
      rw [if_neg (by omega), if_neg (by omega)] at hpy
      exact Except.noConfusion hpy
    · intro hge hlt
      refine ⟨cache, ?_⟩
      unfold get_level_spacing
      rw [hl]
      have hv : v = m.spacings.getD
          (if level < 0 then (level + m.spacings.length).toNat else level.toNat) 0 := by
        unfold pyListGet at hpy
        by_cases h0 : 0 ≤ level
        · rw [if_pos ⟨h0, hlt⟩] at hpy
          injection hpy with hpv
          rw [← hpv, if_neg (by omega)]
        · push_neg at h0
          rw [if_neg (by omega), if_pos ⟨hge, h0⟩] at hpy
          injection hpy with hpv
          rw [← hpv, if_pos h0]
      rw [hv]
  | none =>
    constructor
    · intro hout
      unfold get_level_spacing
      rw [hl]
      have hpy : pyListGet m.spacings level = Except.error "IndexError" := by
        unfold pyListGet
        rw [if_neg (by omega), if_neg (by omega)]
      rw [hpy]
    · intro hge hlt
      by_cases h0 : 0 ≤ level
      · have hpy : pyListGet m.spacings level =
            Except.ok (m.spacings.getD level.toNat 0) := by
          unfold pyListGet
          rw [if_pos ⟨h0, hlt⟩]
        refine ⟨(level, m.spacings.getD level.toNat 0) :: cache, ?_⟩
        unfold get_level_spacing
        rw [hl, hpy, if_neg (by omega)]
      · push_neg at h0
        have hpy : pyListGet m.spacings level =
            Except.ok (m.spacings.getD (level + m.spacings.length).toNat 0) := by
          unfold pyListGet
          rw [if_neg (by omega), if_pos ⟨hge, h0⟩]
        refine ⟨(level, m.spacings.getD (level + m.spacings.length).toNat 0) :: cache, ?_⟩
        unfold get_level_spacing
        rw [hl, hpy, if_pos h0]

theorem C9_level_spacing_indexing_witness :
    (((exMeta.spacings.length : ℤ) ≤ 5 ∨ (5 : ℤ) < -(exMeta.spacings.length : ℤ)) →
      get_level_spacing exMeta [] 5 = Except.error "IndexError") ∧
    (-(exMeta.spacings.length : ℤ) ≤ (5 : ℤ) → (5 : ℤ) < (exMeta.spacings.length : ℤ) →
      ∃ c2, get_level_spacing exMeta [] 5 =
        Except.ok (exMeta.spacings.getD
          (if (5 : ℤ) < 0 then ((5 : ℤ) + exMeta.spacings.length).toNat
            else (5 : ℤ).toNat) 0, c2)) :=
  C9_level_spacing_indexing exMeta [] 5 (by simp)
